import Mathlib

/-!
Verification of the pants build-orchestrator core against its
natural-language specification.

The development shallowly embeds the code of
`src/python/pants/goal/context.py` (the `Context` class: target selection,
cache invalidation, dependents queries, locking, subprocess mapping) and
`src/python/pants/backend/python/tasks/python_execution_task_base.py`
(`PythonExecutionTaskBase.prepare` and `create_pex`).

Collaborators of those files that live outside the sources at hand
(`Target.closure_for_targets`, `BuildGraph.inject_synthetic_target`,
`VersionedTargetSet.from_versioned_targets`, the round engine, the
inter-process file lock, the subprocess pool) are modelled from the
specification; each such definition carries a doc comment naming what is
modelled.
-/

/-- A target address.  Addresses are opaque identifiers; `Nat` suffices for
the graph-level properties proved here. -/
abbrev Addr := Nat

/-- The build graph as seen by `Context`: the set of owned target nodes,
the direct dependency edges, the synthetic-target address list and the
`get_concrete_derived_from` back-reference. -/
structure BuildGraph where
  nodes : List Addr
  deps : Addr → List Addr
  syntheticAddresses : List Addr
  derivedFrom : Addr → Addr

/-- A direct dependency edge of the graph. -/
def DepEdge (g : BuildGraph) (a b : Addr) : Prop := b ∈ g.deps a

/-- Transitive reachability along dependency edges. -/
def Reaches (g : BuildGraph) : Addr → Addr → Prop :=
  Relation.ReflTransGen (DepEdge g)

/-- A graph is closed when every dependency of an owned node is owned. -/
def GraphClosed (g : BuildGraph) : Prop :=
  ∀ v ∈ g.nodes, ∀ d ∈ g.deps v, d ∈ g.nodes

instance (g : BuildGraph) : Decidable (GraphClosed g) := by
  unfold GraphClosed; infer_instance

/-- Sum of `1 + out-degree` over the nodes not yet visited; used as the
fuel budget of the depth-first traversals. -/
def unvisitedWeight (g : BuildGraph) (visited : List Addr) : Nat :=
  ((g.nodes.filter (fun x => decide (x ∉ visited))).map
    (fun v => (g.deps v).length + 1)).sum

/-- Preorder depth-first traversal over the dependency edges with an
explicit visited list and worklist.  Fuel makes the recursion structural;
`closureFuel` below always supplies enough. -/
def dfsPre (g : BuildGraph) : Nat → List Addr → List Addr → List Addr
  | 0, visited, _ => visited.reverse
  | Nat.succ fuel, visited, stack =>
    match stack with
    | [] => visited.reverse
    | a :: rest =>
      if a ∈ visited ∨ a ∉ g.nodes then dfsPre g fuel visited rest
      else dfsPre g fuel (a :: visited) (g.deps a ++ rest)

theorem dfsPre_zero (g : BuildGraph) (visited stack : List Addr) :
    dfsPre g 0 visited stack = visited.reverse := rfl

theorem dfsPre_succ_nil (g : BuildGraph) (n : Nat) (visited : List Addr) :
    dfsPre g (n + 1) visited [] = visited.reverse := rfl

theorem dfsPre_succ_skip (g : BuildGraph) (n : Nat) (visited : List Addr)
    (a : Addr) (rest : List Addr) (h : a ∈ visited ∨ a ∉ g.nodes) :
    dfsPre g (n + 1) visited (a :: rest) = dfsPre g n visited rest := by
  simp only [dfsPre, if_pos h]

theorem dfsPre_succ_visit (g : BuildGraph) (n : Nat) (visited : List Addr)
    (a : Addr) (rest : List Addr) (h : ¬(a ∈ visited ∨ a ∉ g.nodes)) :
    dfsPre g (n + 1) visited (a :: rest) =
      dfsPre g n (a :: visited) (g.deps a ++ rest) := by
  simp only [dfsPre, if_neg h]

/-- Monotonicity of a filtered map-sum in the filtering predicate. -/
theorem sum_filter_mono (f : Addr → Nat) (p q : Addr → Bool)
    (h : ∀ x, p x = true → q x = true) :
    ∀ l : List Addr, ((l.filter p).map f).sum ≤ ((l.filter q).map f).sum := by
  intro l
  induction l with
  | nil => simp
  | cons b t ih =>
    cases hp : p b with
    | true =>
      have hq := h b hp
      simp [List.filter_cons, hp, hq]
      omega
    | false =>
      cases hq : q b with
      | false => simpa [List.filter_cons, hp, hq] using ih
      | true =>
        simp [List.filter_cons, hp, hq]
        omega

/-- Removing a present, still-satisfying element from the filter strictly
uses up at least its own weight. -/
theorem sum_filter_cons_le (f : Addr → Nat) (visited : List Addr) (a : Addr)
    (hnv : a ∉ visited) :
    ∀ l : List Addr, a ∈ l →
      ((l.filter (fun x => decide (x ∉ a :: visited))).map f).sum + f a ≤
        ((l.filter (fun x => decide (x ∉ visited))).map f).sum := by
  have hmono : ∀ x, (fun x => decide (x ∉ a :: visited)) x = true →
      (fun x => decide (x ∉ visited)) x = true := by
    intro x hx
    simp only [decide_eq_true_eq] at hx ⊢
    exact fun hmem => hx (List.mem_cons_of_mem a hmem)
  intro l hal
  induction l with
  | nil => cases hal
  | cons b t ih =>
    by_cases hba : b = a
    · subst hba
      have hts := sum_filter_mono f (fun x => decide (x ∉ b :: visited))
        (fun x => decide (x ∉ visited)) hmono t
      have e1 : (b :: t).filter (fun x => decide (x ∉ b :: visited)) =
          t.filter (fun x => decide (x ∉ b :: visited)) :=
        List.filter_cons_of_neg (by simp)
      have e2 : (b :: t).filter (fun x => decide (x ∉ visited)) =
          b :: t.filter (fun x => decide (x ∉ visited)) :=
        List.filter_cons_of_pos (by simpa using hnv)
      rw [e1, e2]
      simp only [List.map_cons, List.sum_cons]
      omega
    · have hat : a ∈ t := by
        cases List.mem_cons.mp hal with
        | inl h => exact absurd h.symm hba
        | inr h => exact h
      have hiht := ih hat
      by_cases hbv : b ∈ visited
      · have e1 : (b :: t).filter (fun x => decide (x ∉ a :: visited)) =
            t.filter (fun x => decide (x ∉ a :: visited)) :=
          List.filter_cons_of_neg (by simp [hbv])
        have e2 : (b :: t).filter (fun x => decide (x ∉ visited)) =
            t.filter (fun x => decide (x ∉ visited)) :=
          List.filter_cons_of_neg (by simp [hbv])
        rw [e1, e2]
        exact hiht
      · have e1 : (b :: t).filter (fun x => decide (x ∉ a :: visited)) =
            b :: t.filter (fun x => decide (x ∉ a :: visited)) :=
          List.filter_cons_of_pos (by simp [hbv, hba])
        have e2 : (b :: t).filter (fun x => decide (x ∉ visited)) =
            b :: t.filter (fun x => decide (x ∉ visited)) :=
          List.filter_cons_of_pos (by simp [hbv])
        rw [e1, e2]
        simp only [List.map_cons, List.sum_cons]
        omega

/-- Visiting a new node frees at least its own fuel share. -/
theorem unvisitedWeight_visit (g : BuildGraph) (visited : List Addr) (a : Addr)
    (ha : a ∈ g.nodes) (hnv : a ∉ visited) :
    unvisitedWeight g (a :: visited) + ((g.deps a).length + 1) ≤
      unvisitedWeight g visited := by
  unfold unvisitedWeight
  exact sum_filter_cons_le (fun v => (g.deps v).length + 1) visited a hnv g.nodes ha

/-- Everything already visited appears in the traversal result. -/
theorem mem_dfsPre_of_visited (g : BuildGraph) :
    ∀ fuel visited stack, ∀ x ∈ visited, x ∈ dfsPre g fuel visited stack := by
  intro fuel
  induction fuel with
  | zero =>
    intro visited stack x hx
    simpa [dfsPre_zero] using hx
  | succ n ih =>
    intro visited stack x hx
    match stack with
    | [] => simpa [dfsPre_succ_nil] using hx
    | a :: rest =>
      by_cases hc : a ∈ visited ∨ a ∉ g.nodes
      · rw [dfsPre_succ_skip g n visited a rest hc]
        exact ih visited rest x hx
      · rw [dfsPre_succ_visit g n visited a rest hc]
        exact ih (a :: visited) (g.deps a ++ rest) x (List.mem_cons_of_mem a hx)

/-- Soundness of the traversal: everything it returns was either already
visited or is reachable from some owned node of the worklist. -/
theorem dfsPre_sound (g : BuildGraph) :
    ∀ fuel visited stack, ∀ x ∈ dfsPre g fuel visited stack,
      x ∈ visited ∨ ∃ s ∈ stack, s ∈ g.nodes ∧ Reaches g s x := by
  intro fuel
  induction fuel with
  | zero =>
    intro visited stack x hx
    rw [dfsPre_zero] at hx
    exact Or.inl (List.mem_reverse.mp hx)
  | succ n ih =>
    intro visited stack x hx
    match stack with
    | [] =>
      rw [dfsPre_succ_nil] at hx
      exact Or.inl (List.mem_reverse.mp hx)
    | a :: rest =>
      by_cases hc : a ∈ visited ∨ a ∉ g.nodes
      · rw [dfsPre_succ_skip g n visited a rest hc] at hx
        rcases ih visited rest x hx with h | ⟨s, hs, hsn, hr⟩
        · exact Or.inl h
        · exact Or.inr ⟨s, List.mem_cons_of_mem a hs, hsn, hr⟩
      · push_neg at hc
        obtain ⟨hnv, hn⟩ := hc
        rw [dfsPre_succ_visit g n visited a rest (by push_neg; exact ⟨hnv, hn⟩)] at hx
        rcases ih (a :: visited) (g.deps a ++ rest) x hx with h | ⟨s, hs, hsn, hr⟩
        · rcases List.mem_cons.mp h with h | h
          · exact Or.inr ⟨a, List.mem_cons_self a rest, hn, h ▸ Relation.ReflTransGen.refl⟩
          · exact Or.inl h
        · rcases List.mem_append.mp hs with h | h
          · exact Or.inr ⟨a, List.mem_cons_self a rest,
              hn, Relation.ReflTransGen.head h hr⟩
          · exact Or.inr ⟨s, List.mem_cons_of_mem a h, hsn, hr⟩

/-- With sufficient fuel, every owned node on the worklist makes it into
the result. -/
theorem mem_dfsPre_of_stack (g : BuildGraph) :
    ∀ fuel visited stack,
      stack.length + unvisitedWeight g visited ≤ fuel →
      ∀ s ∈ stack, s ∈ g.nodes → s ∈ dfsPre g fuel visited stack := by
  intro fuel
  induction fuel with
  | zero =>
    intro visited stack hf s hs _
    have : stack = [] := List.eq_nil_of_length_eq_zero (by omega)
    subst this
    cases hs
  | succ n ih =>
    intro visited stack hf s hs hsn
    match stack with
    | [] => cases hs
    | a :: rest =>
      by_cases hc : a ∈ visited ∨ a ∉ g.nodes
      · rw [dfsPre_succ_skip g n visited a rest hc]
        rcases List.mem_cons.mp hs with heq | hmem
        · subst heq
          rcases hc with hav | hnn
          · exact mem_dfsPre_of_visited g n visited rest s hav
          · exact absurd hsn hnn
        · exact ih visited rest (by simp at hf ⊢; omega) s hmem hsn
      · push_neg at hc
        obtain ⟨hnv, hn⟩ := hc
        have hw := unvisitedWeight_visit g visited a hn hnv
        have hf' : (g.deps a ++ rest).length + unvisitedWeight g (a :: visited) ≤ n := by
          simp only [List.length_append, List.length_cons] at hf ⊢
          omega
        rw [dfsPre_succ_visit g n visited a rest (by push_neg; exact ⟨hnv, hn⟩)]
        rcases List.mem_cons.mp hs with heq | hmem
        · subst heq
          exact mem_dfsPre_of_visited g n (s :: visited) (g.deps s ++ rest) s
            (List.mem_cons_self s visited)
        · exact ih (a :: visited) (g.deps a ++ rest) hf' s
            (List.mem_append.mpr (Or.inr hmem)) hsn

/-- With sufficient fuel the result of the traversal is closed under
dependency edges, provided the graph is closed, the visited list is owned
and every dependency of a visited node is visited or queued. -/
theorem dfsPre_closed (g : BuildGraph) (hclosed : GraphClosed g) :
    ∀ fuel visited stack,
      stack.length + unvisitedWeight g visited ≤ fuel →
      (∀ v ∈ visited, v ∈ g.nodes) →
      (∀ v ∈ visited, ∀ d ∈ g.deps v, d ∈ visited ∨ d ∈ stack) →
      ∀ v ∈ dfsPre g fuel visited stack, ∀ d ∈ g.deps v,
        d ∈ dfsPre g fuel visited stack := by
  intro fuel
  induction fuel with
  | zero =>
    intro visited stack hf _ hinv v hv d hd
    have : stack = [] := List.eq_nil_of_length_eq_zero (by omega)
    subst this
    rw [dfsPre_zero] at hv ⊢
    rcases hinv v (List.mem_reverse.mp hv) d hd with h | h
    · exact List.mem_reverse.mpr h
    · cases h
  | succ n ih =>
    intro visited stack hf hvn hinv v hv d hd
    match stack with
    | [] =>
      rw [dfsPre_succ_nil] at hv ⊢
      rcases hinv v (List.mem_reverse.mp hv) d hd with h | h
      · exact List.mem_reverse.mpr h
      · cases h
    | a :: rest =>
      by_cases hc : a ∈ visited ∨ a ∉ g.nodes
      · rw [dfsPre_succ_skip g n visited a rest hc] at hv ⊢
        have hinv' : ∀ w ∈ visited, ∀ e ∈ g.deps w, e ∈ visited ∨ e ∈ rest := by
          intro w hw e he
          rcases hinv w hw e he with h | h
          · exact Or.inl h
          · rcases List.mem_cons.mp h with heq | hmem
            · subst heq
              rcases hc with hav | hnn
              · exact Or.inl hav
              · exact absurd (hclosed w (hvn w hw) e he) hnn
            · exact Or.inr hmem
        exact ih visited rest (by simp at hf ⊢; omega) hvn hinv' v hv d hd
      · push_neg at hc
        obtain ⟨hnv, hn⟩ := hc
        have hw := unvisitedWeight_visit g visited a hn hnv
        have hf' : (g.deps a ++ rest).length + unvisitedWeight g (a :: visited) ≤ n := by
          simp only [List.length_append, List.length_cons] at hf ⊢
          omega
        rw [dfsPre_succ_visit g n visited a rest (by push_neg; exact ⟨hnv, hn⟩)] at hv ⊢
        have hvn' : ∀ w ∈ a :: visited, w ∈ g.nodes := by
          intro w hw
          rcases List.mem_cons.mp hw with heq | hmem
          · exact heq ▸ hn
          · exact hvn w hmem
        have hinv' : ∀ w ∈ a :: visited, ∀ e ∈ g.deps w,
            e ∈ a :: visited ∨ e ∈ g.deps a ++ rest := by
          intro w hw e he
          rcases List.mem_cons.mp hw with heq | hmem
          · subst heq
            exact Or.inr (List.mem_append.mpr (Or.inl he))
          · rcases hinv w hmem e he with h | h
            · exact Or.inl (List.mem_cons_of_mem a h)
            · rcases List.mem_cons.mp h with heq | hmem2
              · exact Or.inl (heq ▸ List.mem_cons_self a visited)
              · exact Or.inr (List.mem_append.mpr (Or.inr hmem2))
        exact ih (a :: visited) (g.deps a ++ rest) hf' hvn' hinv' v hv d hd

/-- The traversal result never contains duplicates. -/
theorem dfsPre_nodup (g : BuildGraph) :
    ∀ fuel visited stack, visited.Nodup → (dfsPre g fuel visited stack).Nodup := by
  intro fuel
  induction fuel with
  | zero =>
    intro visited stack h
    rw [dfsPre_zero]
    exact List.nodup_reverse.mpr h
  | succ n ih =>
    intro visited stack h
    match stack with
    | [] =>
      rw [dfsPre_succ_nil]
      exact List.nodup_reverse.mpr h
    | a :: rest =>
      by_cases hc : a ∈ visited ∨ a ∉ g.nodes
      · rw [dfsPre_succ_skip g n visited a rest hc]
        exact ih visited rest h
      · push_neg at hc
        rw [dfsPre_succ_visit g n visited a rest (by push_neg; exact hc)]
        exact ih (a :: visited) (g.deps a ++ rest) (List.nodup_cons.mpr ⟨hc.1, h⟩)

/-- Every node of the result of the traversal is owned by the graph, as
long as the initially visited nodes are. -/
theorem dfsPre_subset_nodes (g : BuildGraph) :
    ∀ fuel visited stack, (∀ v ∈ visited, v ∈ g.nodes) →
      ∀ x ∈ dfsPre g fuel visited stack, x ∈ g.nodes := by
  intro fuel
  induction fuel with
  | zero =>
    intro visited stack h x hx
    rw [dfsPre_zero] at hx
    exact h x (List.mem_reverse.mp hx)
  | succ n ih =>
    intro visited stack h x hx
    match stack with
    | [] =>
      rw [dfsPre_succ_nil] at hx
      exact h x (List.mem_reverse.mp hx)
    | a :: rest =>
      by_cases hc : a ∈ visited ∨ a ∉ g.nodes
      · rw [dfsPre_succ_skip g n visited a rest hc] at hx
        exact ih visited rest h x hx
      · push_neg at hc
        rw [dfsPre_succ_visit g n visited a rest (by push_neg; exact hc)] at hx
        refine ih (a :: visited) (g.deps a ++ rest) ?_ x hx
        intro v hv
        rcases List.mem_cons.mp hv with heq | hmem
        · exact heq ▸ hc.2
        · exact h v hmem

/-- Fuel always sufficient for a preorder traversal started from `roots`. -/
def closureFuel (g : BuildGraph) (roots : List Addr) : Nat :=
  roots.length + unvisitedWeight g []

/-- Worklist entries of the postorder traversal: either explore a node or
emit an already-explored node. -/
inductive DfsTask where
  | visit (a : Addr)
  | emit (a : Addr)
deriving DecidableEq

/-- Postorder depth-first traversal: a node is emitted only after all of
its dependencies have been explored. -/
def dfsPost (g : BuildGraph) : Nat → List Addr → List Addr → List DfsTask → List Addr
  | 0, _, emitted, _ => emitted.reverse
  | Nat.succ fuel, visited, emitted, stack =>
    match stack with
    | [] => emitted.reverse
    | DfsTask.emit a :: rest => dfsPost g fuel visited (a :: emitted) rest
    | DfsTask.visit a :: rest =>
      if a ∈ visited ∨ a ∉ g.nodes then dfsPost g fuel visited emitted rest
      else dfsPost g fuel (a :: visited) emitted
        ((g.deps a).map DfsTask.visit ++ DfsTask.emit a :: rest)

/-- Fuel always sufficient for a postorder traversal started from `roots`. -/
def postFuel (g : BuildGraph) (roots : List Addr) : Nat :=
  roots.length + ((g.nodes.map (fun v => (g.deps v).length + 2)).sum)

/-- Modelled from the spec: `Target.closure_for_targets` (not among the
sources at hand) returns the transitive dependency closure of the given
roots, gathered by a preorder traversal by default and by a postorder
traversal when `postorder` is true, as an ordered duplicate-free list. -/
def closureForTargets (g : BuildGraph) (roots : List Addr) (postorder : Bool) :
    List Addr :=
  if postorder then dfsPost g (postFuel g roots) [] [] (roots.map DfsTask.visit)
  else dfsPre g (closureFuel g roots) [] roots

/-- Membership in the preorder closure is exactly reachability from an
owned root. -/
theorem mem_closureForTargets (g : BuildGraph) (hclosed : GraphClosed g)
    (roots : List Addr) (x : Addr) :
    x ∈ closureForTargets g roots false ↔
      ∃ r ∈ roots, r ∈ g.nodes ∧ Reaches g r x := by
  unfold closureForTargets
  simp only [Bool.false_eq_true, if_neg, if_false]
  constructor
  · intro hx
    rcases dfsPre_sound g (closureFuel g roots) [] roots x hx with h | h
    · cases h
    · exact h
  · rintro ⟨r, hr, hrn, hreach⟩
    have hfuel : roots.length + unvisitedWeight g [] ≤ closureFuel g roots :=
      Nat.le_refl _
    have hroot : r ∈ dfsPre g (closureFuel g roots) [] roots :=
      mem_dfsPre_of_stack g (closureFuel g roots) [] roots hfuel r hr hrn
    have hcl := dfsPre_closed g hclosed (closureFuel g roots) [] roots hfuel
      (by intro v hv; cases hv) (by intro v hv; cases hv)
    induction hreach with
    | refl => exact hroot
    | tail hstep hedge ihstep => exact hcl _ ihstep _ hedge

/-- The preorder closure never contains duplicates. -/
theorem closureForTargets_nodup (g : BuildGraph) (roots : List Addr) :
    (closureForTargets g roots false).Nodup := by
  unfold closureForTargets
  simp only [Bool.false_eq_true, if_neg, if_false]
  exact dfsPre_nodup g (closureFuel g roots) [] roots List.nodup_nil

/-- A root that the graph owns is always in its own preorder closure. -/
theorem mem_closureForTargets_of_root (g : BuildGraph) (roots : List Addr)
    (r : Addr) (hr : r ∈ roots) (hrn : r ∈ g.nodes) :
    r ∈ closureForTargets g roots false := by
  unfold closureForTargets
  simp only [Bool.false_eq_true, if_neg, if_false]
  exact mem_dfsPre_of_stack g (closureFuel g roots) [] roots (Nat.le_refl _) r hr hrn

/-- Every member of the preorder closure is owned by the graph. -/
theorem closureForTargets_subset_nodes (g : BuildGraph) (roots : List Addr)
    (x : Addr) (hx : x ∈ closureForTargets g roots false) : x ∈ g.nodes := by
  unfold closureForTargets at hx
  simp only [Bool.false_eq_true, if_neg, if_false] at hx
  exact dfsPre_subset_nodes g (closureFuel g roots) [] roots
    (by intro v hv; cases hv) x hx

/-- The keyword arguments of `Context.targets` that matter to these claims
are boolean-valued (`postorder`); a call's keyword arguments are a list of
name/value pairs. -/
abbrev Kwargs := List (String × Bool)

/-- The memoization key `Context.targets` computes:
`targets_cache_key = tuple(sorted(kwargs))`, i.e. the sorted keyword
NAMES — iterating a Python dict yields its keys, so the values do not
enter the key. -/
def targetsCacheKey (kwargs : Kwargs) : List String :=
  (kwargs.map Prod.fst).insertionSort (fun a b => a ≤ b)

/-- Python `OrderedSet.update`: append the members of `ys` not already present,
preserving first-insertion order. -/
def osUpdate (xs ys : List Addr) : List Addr :=
  xs ++ ys.filter (fun y => decide (y ∉ xs))

theorem mem_osUpdate (xs ys : List Addr) (x : Addr) :
    x ∈ osUpdate xs ys ↔ x ∈ xs ∨ x ∈ ys := by
  unfold osUpdate
  by_cases hx : x ∈ xs
  · simp [hx]
  · simp [hx, List.mem_filter]

theorem osUpdate_nodup (xs ys : List Addr) (hx : xs.Nodup) (hy : ys.Nodup) :
    (osUpdate xs ys).Nodup := by
  unfold osUpdate
  refine List.Nodup.append hx (hy.filter _) ?_
  intro a ha hafil
  have := (List.mem_filter.mp hafil).2
  simp only [decide_eq_true_eq] at this
  exact this ha

/-- Embeds `Context._unfiltered_targets`: the closure of the target roots,
extended with every synthetic target whose concrete derived-from target
is in that closure, together with those synthetics' own closure. -/
def unfilteredTargets (g : BuildGraph) (roots : List Addr) (kwargs : Kwargs) :
    List Addr :=
  let postorder := (kwargs.lookup ("postorder")).getD false
  let targetSet := closureForTargets g roots postorder
  let synthetics := g.syntheticAddresses.filter
    (fun s => decide (g.derivedFrom s ∈ targetSet))
  osUpdate targetSet (closureForTargets g synthetics postorder)

/-- The state `Context` carries for these claims: the build graph, the
target roots, the per-run `_targets_cache`, and whether the invalidation
callback was registered on the graph. -/
structure ContextState where
  graph : BuildGraph
  targetRoots : List Addr
  targetsCache : List (List String × List Addr)
  callbackRegistered : Bool

/-- Embeds `Context.__init__`: registers the cache-invalidation callback on the
build graph and starts with an empty targets cache. -/
def contextInit (g : BuildGraph) (roots : List Addr) : ContextState :=
  { graph := g, targetRoots := roots, targetsCache := [], callbackRegistered := true }

/-- Embeds `Context._clear_target_cache`. -/
def clearTargetCache (st : ContextState) : ContextState :=
  { st with targetsCache := [] }

/-- Embeds `Context.targets(predicate, **kwargs)`: look the unfiltered closure up
in the per-run cache under `targets_cache_key`, computing and caching it
on a miss, then filter with the predicate. -/
def contextTargets (st : ContextState) (pred : Addr → Bool) (kwargs : Kwargs) :
    List Addr × ContextState :=
  let key := targetsCacheKey kwargs
  match st.targetsCache.lookup key with
  | some ts => (ts.filter pred, st)
  | none =>
    let ts := unfilteredTargets st.graph st.targetRoots kwargs
    (ts.filter pred, { st with targetsCache := (key, ts) :: st.targetsCache })

/-- The build graph after a synthetic target is injected: the address
becomes an owned node (appended if new), carries the given dependencies,
is recorded as synthetic, and its concrete derived-from target is the one
given. -/
def injectGraph (g : BuildGraph) (address : Addr) (dependencies : List Addr)
    (df : Addr) : BuildGraph :=
  { nodes := if address ∈ g.nodes then g.nodes else g.nodes ++ [address]
    deps := fun x => if x = address then dependencies else g.deps x
    syntheticAddresses := g.syntheticAddresses ++ [address]
    derivedFrom := fun x => if x = address then df else g.derivedFrom x }

/-- Modelled from the spec: `BuildGraph.inject_synthetic_target` (not
among the sources at hand) adds a synthetic target node with the given
dependencies and derived-from back-reference, and fires the registered
invalidation callbacks synchronously before returning. -/
def injectSyntheticTarget (st : ContextState) (address : Addr)
    (dependencies : List Addr) (df : Addr) : ContextState :=
  let st2 := { st with graph := injectGraph st.graph address dependencies df }
  if st2.callbackRegistered then clearTargetCache st2 else st2

/-- Embeds `Context.add_new_target`: clears the context's targets cache and then
injects the synthetic target into the build graph (which itself fires the
invalidation callbacks), returning the new target's address. -/
def addNewTarget (st : ContextState) (address : Addr) (dependencies : List Addr)
    (derivedFrom : Addr) : ContextState × Addr :=
  let st1 := clearTargetCache st
  let st2 := injectSyntheticTarget st1 address dependencies derivedFrom
  (st2, address)

/-- Embeds `Context.dependents(on_predicate, from_predicate)`: the reverse-edge
map restricted to the in-play targets, built exactly as the source does —
`core` are the in-play targets satisfying the on-predicate, and a
from-predicate target gets an entry for each direct dependency in `core`
(the `defaultdict(set)` creates an entry only when a member is added). -/
def contextDependents (st : ContextState) (onPred fromPred : Addr → Bool) :
    List (Addr × List Addr) × ContextState :=
  let r1 := contextTargets st onPred []
  let core := r1.1
  let r2 := contextTargets r1.2 fromPred []
  ((r2.1.filterMap (fun t =>
      let ds := ((r2.2.graph.deps t).filter (fun d => decide (d ∈ core))).dedup
      if ds.isEmpty then none else some (t, ds))), r2.2)

/-- Membership characterization of `Context._unfiltered_targets` with
default keyword arguments (preorder traversal). -/
theorem mem_unfilteredTargets (g : BuildGraph) (hclosed : GraphClosed g)
    (roots : List Addr) (hroots : ∀ r ∈ roots, r ∈ g.nodes)
    (hsyn : ∀ s ∈ g.syntheticAddresses, s ∈ g.nodes) (x : Addr) :
    x ∈ unfilteredTargets g roots [] ↔
      (∃ r ∈ roots, Reaches g r x) ∨
      ∃ s ∈ g.syntheticAddresses,
        (∃ r ∈ roots, Reaches g r (g.derivedFrom s)) ∧ Reaches g s x := by
  unfold unfilteredTargets
  simp only [List.lookup_nil, Option.getD_none]
  rw [mem_osUpdate]
  have hroot_iff : ∀ y, y ∈ closureForTargets g roots false ↔
      ∃ r ∈ roots, Reaches g r y := by
    intro y
    rw [mem_closureForTargets g hclosed roots y]
    constructor
    · rintro ⟨r, hr, _, hreach⟩
      exact ⟨r, hr, hreach⟩
    · rintro ⟨r, hr, hreach⟩
      exact ⟨r, hr, hroots r hr, hreach⟩
  rw [hroot_iff x, mem_closureForTargets g hclosed _ x]
  constructor
  · rintro (h | ⟨s, hs, _, hreach⟩)
    · exact Or.inl h
    · have hsfil := List.mem_filter.mp hs
      have hcond := hsfil.2
      simp only [decide_eq_true_eq] at hcond
      exact Or.inr ⟨s, hsfil.1, (hroot_iff _).mp hcond, hreach⟩
  · rintro (h | ⟨s, hs, hdf, hreach⟩)
    · exact Or.inl h
    · refine Or.inr ⟨s, ?_, hsyn s hs, hreach⟩
      refine List.mem_filter.mpr ⟨hs, ?_⟩
      simp only [decide_eq_true_eq]
      exact (hroot_iff _).mpr hdf

/-- The unfiltered target list computed with default keyword arguments
never contains duplicates. -/
theorem unfilteredTargets_nodup (g : BuildGraph) (roots : List Addr) :
    (unfilteredTargets g roots []).Nodup := by
  unfold unfilteredTargets
  simp only [List.lookup_nil, Option.getD_none]
  exact osUpdate_nodup _ _ (closureForTargets_nodup g roots)
    (closureForTargets_nodup g _)

/-- A fresh context's `targets()` call computes and filters the unfiltered
closure (the cache starts empty). -/
theorem contextTargets_init_fst (g : BuildGraph) (roots : List Addr)
    (pred : Addr → Bool) :
    (contextTargets (contextInit g roots) pred []).1 =
      (unfilteredTargets g roots []).filter pred := rfl

/-- Filtering with the trivial predicate (Python `filter(None, ...)`)
keeps every element. -/
theorem filter_trivial_pred (l : List Addr) : l.filter (fun _ => true) = l := by
  induction l with
  | nil => rfl
  | cons a t ih => simp [List.filter_cons, ih]

/-- C7: for every (acyclic or not) closed dependency graph whose roots and
synthetic addresses are owned nodes, `Context.targets()` with no predicate
returns, without duplicates, exactly the targets reachable from the target
roots, together with every synthetic target whose concrete derived-from
target is in that reachable set and those synthetics' own reachable
dependencies. -/
theorem targets_returns_reachable_closure (g : BuildGraph) (roots : List Addr)
    (hclosed : GraphClosed g) (hroots : ∀ r ∈ roots, r ∈ g.nodes)
    (hsyn : ∀ s ∈ g.syntheticAddresses, s ∈ g.nodes) :
    (contextTargets (contextInit g roots) (fun _ => true) []).1.Nodup ∧
    ∀ x, x ∈ (contextTargets (contextInit g roots) (fun _ => true) []).1 ↔
      ((∃ r ∈ roots, Reaches g r x) ∨
       ∃ s ∈ g.syntheticAddresses,
         (∃ r ∈ roots, Reaches g r (g.derivedFrom s)) ∧ Reaches g s x) := by
  rw [contextTargets_init_fst, filter_trivial_pred]
  exact ⟨unfilteredTargets_nodup g roots,
    fun x => mem_unfilteredTargets g hclosed roots hroots hsyn x⟩

/-- Concrete graph for the closure witness: `0 → 1`, `2 → 3`, with `2`
synthetic and derived from the concrete target `1`. -/
def gW7 : BuildGraph :=
  { nodes := [0, 1, 2, 3]
    deps := fun a => if a = 0 then [1] else if a = 2 then [3] else []
    syntheticAddresses := [2]
    derivedFrom := fun a => if a = 2 then 1 else a }

theorem targets_returns_reachable_closure_witness :
    GraphClosed gW7 ∧ (∀ r ∈ [0], r ∈ gW7.nodes) ∧
    (∀ s ∈ gW7.syntheticAddresses, s ∈ gW7.nodes) ∧
    ((contextTargets (contextInit gW7 [0]) (fun _ => true) []).1.Nodup ∧
     ∀ x, x ∈ (contextTargets (contextInit gW7 [0]) (fun _ => true) []).1 ↔
       ((∃ r ∈ [0], Reaches gW7 r x) ∨
        ∃ s ∈ gW7.syntheticAddresses,
          (∃ r ∈ [0], Reaches gW7 r (gW7.derivedFrom s)) ∧ Reaches gW7 s x)) :=
  ⟨by decide, by decide, by decide,
    targets_returns_reachable_closure gW7 [0] (by decide) (by decide) (by decide)⟩

/-- What a fresh context's `dependents` computes, unfolded: the second
`targets()` call hits the cache populated by the first, so both calls
filter the same unfiltered closure. -/
theorem contextDependents_init_fst (g : BuildGraph) (roots : List Addr)
    (onPred fromPred : Addr → Bool) :
    (contextDependents (contextInit g roots) onPred fromPred).1 =
      ((unfilteredTargets g roots []).filter fromPred).filterMap (fun t =>
        let ds := ((g.deps t).filter (fun d =>
          decide (d ∈ (unfilteredTargets g roots []).filter onPred))).dedup
        if ds.isEmpty then none else some (t, ds)) := rfl

/-- C8: `Context.dependents(on_predicate, from_predicate)` on a fresh
context maps exactly the in-play targets satisfying the from-predicate
that have a direct dependency on an in-play target satisfying the
on-predicate to precisely those dependencies; no target outside the
in-play set occurs as a key or as a set member. -/
theorem dependents_reverse_edge_characterization (g : BuildGraph)
    (roots : List Addr) (onPred fromPred : Addr → Bool) :
    (∀ t ds, (t, ds) ∈ (contextDependents (contextInit g roots) onPred fromPred).1 →
       t ∈ unfilteredTargets g roots [] ∧ fromPred t = true ∧
       ∀ d ∈ ds, d ∈ unfilteredTargets g roots [] ∧ onPred d = true ∧ d ∈ g.deps t) ∧
    (∀ t, (∃ ds, (t, ds) ∈ (contextDependents (contextInit g roots) onPred fromPred).1) ↔
       (t ∈ unfilteredTargets g roots [] ∧ fromPred t = true ∧
        ∃ d ∈ g.deps t, d ∈ unfilteredTargets g roots [] ∧ onPred d = true)) ∧
    (∀ t ds, (t, ds) ∈ (contextDependents (contextInit g roots) onPred fromPred).1 →
       ∀ d, d ∈ ds ↔ (d ∈ g.deps t ∧ d ∈ unfilteredTargets g roots [] ∧ onPred d = true)) := by
  rw [contextDependents_init_fst]
  have hds_mem : ∀ t d,
      d ∈ ((g.deps t).filter (fun d =>
        decide (d ∈ (unfilteredTargets g roots []).filter onPred))).dedup ↔
      (d ∈ g.deps t ∧ d ∈ unfilteredTargets g roots [] ∧ onPred d = true) := by
    intro t d
    rw [List.mem_dedup, List.mem_filter]
    simp only [decide_eq_true_eq, List.mem_filter]
  have hentry : ∀ t ds,
      ((t, ds) ∈ ((unfilteredTargets g roots []).filter fromPred).filterMap (fun t =>
        let ds := ((g.deps t).filter (fun d =>
          decide (d ∈ (unfilteredTargets g roots []).filter onPred))).dedup
        if ds.isEmpty then none else some (t, ds))) ↔
      (t ∈ (unfilteredTargets g roots []).filter fromPred ∧
       ds = ((g.deps t).filter (fun d =>
         decide (d ∈ (unfilteredTargets g roots []).filter onPred))).dedup ∧
       ds.isEmpty = false) := by
    intro t ds
    rw [List.mem_filterMap]
    constructor
    · rintro ⟨a, ha, hfa⟩
      simp only at hfa
      by_cases he : (((g.deps a).filter (fun d =>
          decide (d ∈ (unfilteredTargets g roots []).filter onPred))).dedup).isEmpty
      · rw [if_pos he] at hfa
        cases hfa
      · rw [if_neg he] at hfa
        have hpair := Option.some.inj hfa
        rw [Prod.ext_iff] at hpair
        obtain ⟨hta, hdsa⟩ := hpair
        simp only at hta hdsa
        subst hta
        subst hdsa
        exact ⟨ha, rfl, Bool.eq_false_iff.mpr he⟩
    · rintro ⟨ht, hds, hne⟩
      subst hds
      refine ⟨t, ht, ?_⟩
      simp only
      rw [if_neg (by rw [hne]; exact Bool.false_ne_true)]
  refine ⟨?_, ?_, ?_⟩
  · intro t ds hmem
    obtain ⟨ht, hds, _⟩ := (hentry t ds).mp hmem
    have htf := List.mem_filter.mp ht
    refine ⟨htf.1, htf.2, ?_⟩
    intro d hd
    have := (hds_mem t d).mp (hds ▸ hd)
    exact ⟨this.2.1, this.2.2, this.1⟩
  · intro t
    constructor
    · rintro ⟨ds, hmem⟩
      obtain ⟨ht, hds, hne⟩ := (hentry t ds).mp hmem
      have htf := List.mem_filter.mp ht
      refine ⟨htf.1, htf.2, ?_⟩
      obtain ⟨d, hd⟩ := List.exists_mem_of_ne_nil ds
        (fun h => by rw [h] at hne; cases hne)
      have := (hds_mem t d).mp (hds ▸ hd)
      exact ⟨d, this.1, this.2.1, this.2.2⟩
    · rintro ⟨ht, htf, d, hd, hdu, hdo⟩
      refine ⟨((g.deps t).filter (fun d =>
        decide (d ∈ (unfilteredTargets g roots []).filter onPred))).dedup, ?_⟩
      refine (hentry t _).mpr ⟨List.mem_filter.mpr ⟨ht, htf⟩, rfl, ?_⟩
      have hdmem := (hds_mem t d).mpr ⟨hd, hdu, hdo⟩
      cases hie : (((g.deps t).filter (fun d =>
          decide (d ∈ (unfilteredTargets g roots []).filter onPred))).dedup).isEmpty
      · rfl
      · rw [List.isEmpty_iff] at hie
        rw [hie] at hdmem
        cases hdmem
  · intro t ds hmem d
    obtain ⟨_, hds, _⟩ := (hentry t ds).mp hmem
    rw [hds]
    exact hds_mem t d

/-- The state returned by `add_new_target`, componentwise: graph updated
by the synthetic injection, roots kept, targets cache cleared, callback
registration kept. -/
theorem addNewTarget_fst (st : ContextState) (address : Addr)
    (dependencies : List Addr) (df : Addr) :
    (addNewTarget st address dependencies df).1 =
      { graph := injectGraph st.graph address dependencies df
        targetRoots := st.targetRoots
        targetsCache := []
        callbackRegistered := st.callbackRegistered } := by
  by_cases hcb : st.callbackRegistered
  · simp [addNewTarget, injectSyntheticTarget, clearTargetCache, hcb]
  · simp [addNewTarget, injectSyntheticTarget, clearTargetCache, hcb]

/-- The injected address is owned by the updated graph. -/
theorem mem_injectGraph_nodes (g : BuildGraph) (address : Addr)
    (dependencies : List Addr) (df : Addr) :
    address ∈ (injectGraph g address dependencies df).nodes := by
  unfold injectGraph
  by_cases h : address ∈ g.nodes
  · simp only [if_pos h]
    exact h
  · simp [h]

/-- A `targets()` call on a context whose cache is empty computes and
filters the unfiltered closure. -/
theorem contextTargets_empty_cache_fst (st : ContextState) (pred : Addr → Bool)
    (h : st.targetsCache = []) :
    (contextTargets st pred []).1 =
      (unfilteredTargets st.graph st.targetRoots []).filter pred := by
  unfold contextTargets
  rw [h]
  rfl

/-- C2: `Context.__init__` registers the graph-invalidation callback, and
`Context.add_new_target` leaves the memoized targets cache empty when it
returns (it clears the cache before mutating and the graph mutation fires
the callback again), so the next `targets()` call recomputes the closure
and — whenever the new target's concrete derived-from target lies in the
roots' closure — includes the newly injected target. -/
theorem add_new_target_invalidates_targets_cache
    (g : BuildGraph) (roots : List Addr) (st : ContextState)
    (address : Addr) (dependencies : List Addr) (df : Addr)
    (hdf : (injectGraph st.graph address dependencies df).derivedFrom address ∈
      closureForTargets (injectGraph st.graph address dependencies df)
        st.targetRoots false) :
    (contextInit g roots).callbackRegistered = true ∧
    (addNewTarget st address dependencies df).1.targetsCache = [] ∧
    address ∈ (contextTargets (addNewTarget st address dependencies df).1
      (fun _ => true) []).1 := by
  have hfst := addNewTarget_fst st address dependencies df
  refine ⟨rfl, by rw [hfst], ?_⟩
  rw [hfst, contextTargets_empty_cache_fst _ _ rfl, filter_trivial_pred]
  show address ∈ unfilteredTargets (injectGraph st.graph address dependencies df)
    st.targetRoots []
  unfold unfilteredTargets
  simp only [List.lookup_nil, Option.getD_none]
  rw [mem_osUpdate]
  refine Or.inr ?_
  refine mem_closureForTargets_of_root _ _ address ?_
    (mem_injectGraph_nodes st.graph address dependencies df)
  refine List.mem_filter.mpr ⟨?_, ?_⟩
  · show address ∈ (injectGraph st.graph address dependencies df).syntheticAddresses
    unfold injectGraph
    exact List.mem_append_right _ (List.mem_singleton.mpr rfl)
  · simp only [decide_eq_true_eq]
    exact hdf

/-- Concrete context for the cache-invalidation witness: one concrete
root target `0`; the synthetic target `1` is injected derived from `0`. -/
def gW2 : BuildGraph :=
  { nodes := [0]
    deps := fun _ => []
    syntheticAddresses := []
    derivedFrom := fun a => a }

theorem add_new_target_invalidates_targets_cache_witness :
    ((injectGraph (contextInit gW2 [0]).graph 1 [] 0).derivedFrom 1 ∈
      closureForTargets (injectGraph (contextInit gW2 [0]).graph 1 [] 0)
        (contextInit gW2 [0]).targetRoots false) ∧
    ((contextInit gW2 [0]).callbackRegistered = true ∧
     (addNewTarget (contextInit gW2 [0]) 1 [] 0).1.targetsCache = [] ∧
     1 ∈ (contextTargets (addNewTarget (contextInit gW2 [0]) 1 [] 0).1
       (fun _ => true) []).1) :=
  ⟨by decide,
   add_new_target_invalidates_targets_cache gW2 [0] (contextInit gW2 [0]) 1 [] 0
     (by decide)⟩

/-- Concrete graph for the targets-cache claim: a single root `0` with one
dependency `1`, so the preorder closure is `[0, 1]` and the postorder
closure is `[1, 0]`. -/
def gC1 : BuildGraph :=
  { nodes := [0, 1]
    deps := fun a => if a = 0 then [1] else []
    syntheticAddresses := []
    derivedFrom := fun a => a }

/-- C1 (failing input): on a fixed, unmutated graph, a run that first
calls `targets(postorder=True)` and then `targets(postorder=False)` gets
the memoized postorder list `[1, 0]` back from the second call, although
a fresh `targets(postorder=False)` call computes the preorder list
`[0, 1]` — `targets_cache_key = tuple(sorted(kwargs))` keys the memo on
keyword names only, so calls differing only in keyword-argument values
share a cache entry. -/
theorem targets_cache_key_ignores_kwarg_values :
    (contextTargets
        (contextTargets (contextInit gC1 [0]) (fun _ => true)
          [("postorder", true)]).2
        (fun _ => true) [("postorder", false)]).1 = [1, 0] ∧
    (contextTargets (contextInit gC1 [0]) (fun _ => true)
        [("postorder", true)]).1 = [1, 0] ∧
    (contextTargets (contextInit gC1 [0]) (fun _ => true)
        [("postorder", false)]).1 = [0, 1] := by
  refine ⟨rfl, rfl, rfl⟩

/-- Modelled from the spec: the global workdir file lock
(`OwnerPrintingInterProcessFileLock`, not among the sources at hand) —
its observable state is whether it is currently held. -/
structure InterProcessFileLock where
  acquired : Bool
deriving DecidableEq

/-- Modelled from the spec: releasing the file lock leaves it unheld. -/
def lockReleasePrim (_l : InterProcessFileLock) : InterProcessFileLock :=
  { acquired := false }

/-- Embeds `Context.release_lock`: returns False without touching the lock when
it is not held, otherwise releases it and returns True. -/
def releaseLock (l : InterProcessFileLock) : InterProcessFileLock × Bool :=
  if l.acquired = false then (l, false)
  else (lockReleasePrim l, true)

/-- Embeds `Context.is_unlocked`. -/
def isUnlocked (l : InterProcessFileLock) : Bool := !l.acquired

/-- C9: `release_lock` returns True exactly when the lock was held before
the call, afterwards the lock is never held, and a call made while the
lock is not held changes no state. -/
theorem release_lock_iff_held (l : InterProcessFileLock) :
    (releaseLock l).2 = l.acquired ∧
    isUnlocked (releaseLock l).1 = true ∧
    (isUnlocked l = true → (releaseLock l).1 = l) := by
  cases l with
  | mk acq =>
    cases acq
    · exact ⟨rfl, rfl, fun _ => rfl⟩
    · refine ⟨rfl, rfl, ?_⟩
      intro h
      cases h

theorem release_lock_iff_held_witness :
    ((releaseLock { acquired := true }).2 = true ∧
     isUnlocked (releaseLock { acquired := true }).1 = true) ∧
    (isUnlocked { acquired := false } = true ∧
     (releaseLock { acquired := false }).1 = { acquired := false }) :=
  ⟨⟨(release_lock_iff_held { acquired := true }).1,
    (release_lock_iff_held { acquired := true }).2.1⟩,
   ⟨rfl, (release_lock_iff_held { acquired := false }).2.2 rfl⟩⟩

/-- Modelled from the spec: the subprocess worker pool (not among the
sources at hand) — its observable state is whether `shutdown` was called. -/
structure SubprocPoolState where
  shutdownCalled : Bool
deriving DecidableEq

/-- What happens while `subproc_map` waits on the pool: either the mapped
results become ready, or a keyboard interrupt arrives during the wait. -/
inductive WaitOutcome where
  | ready
  | interrupted
deriving DecidableEq

/-- Embeds `Context.subproc_map`: maps `f` over `items` on the subprocess pool;
on a keyboard interrupt during the bounded-timeout wait loop the pool is
shut down and the interrupt is re-raised (`Except.error`), otherwise the
complete mapped result list is returned. -/
def subprocMap {α β : Type} (f : α → β) (items : List α) (outcome : WaitOutcome)
    (pool : SubprocPoolState) : SubprocPoolState × Except Unit (List β) :=
  match outcome with
  | WaitOutcome.ready => (pool, Except.ok (items.map f))
  | WaitOutcome.interrupted => ({ shutdownCalled := true }, Except.error ())

/-- C5: if a keyboard interrupt arrives while `subproc_map` waits for the
pool, the pool is shut down and the interrupt propagates to the caller;
the interrupt is never swallowed into an `ok` result, and a successful
return is always the complete mapped list — never a partial one. -/
theorem subproc_map_interrupt_semantics {α β : Type} (f : α → β) (items : List α)
    (pool : SubprocPoolState) :
    ((subprocMap f items WaitOutcome.interrupted pool).1.shutdownCalled = true ∧
     (subprocMap f items WaitOutcome.interrupted pool).2 = Except.error ()) ∧
    (∀ rs, (subprocMap f items WaitOutcome.ready pool).2 = Except.ok rs →
       rs = items.map f ∧ rs.length = items.length) := by
  refine ⟨⟨rfl, rfl⟩, ?_⟩
  intro rs h
  have : rs = items.map f := (Except.ok.inj h).symm
  exact ⟨this, by rw [this, List.length_map]⟩

theorem subproc_map_interrupt_semantics_witness :
    ((subprocMap Nat.succ [1, 2] WaitOutcome.interrupted
        { shutdownCalled := false }).1.shutdownCalled = true ∧
     (subprocMap Nat.succ [1, 2] WaitOutcome.interrupted
        { shutdownCalled := false }).2 = Except.error ()) ∧
    ([2, 3] = [1, 2].map Nat.succ ∧ ([2, 3] : List Nat).length = [1, 2].length) :=
  ⟨(subproc_map_interrupt_semantics Nat.succ [1, 2] { shutdownCalled := false }).1,
   (subproc_map_interrupt_semantics Nat.succ [1, 2]
     { shutdownCalled := false }).2 [2, 3] rfl⟩

/-- Modelled from the spec: `VersionedTargetSet.from_versioned_targets`
(not among the sources at hand) derives the merged cache key of a group of
versioned targets as a hash of the sorted individual cache keys; the hash
function itself is an opaque parameter. -/
def fromVersionedTargetsKey (hash : List Nat → Nat) (keys : List Nat) : Nat :=
  hash (keys.insertionSort (fun a b => a ≤ b))

/-- Sorting is invariant under permutation of the input. -/
theorem insertionSort_eq_of_perm (k1 k2 : List Nat) (h : k1.Perm k2) :
    k1.insertionSort (fun a b => a ≤ b) = k2.insertionSort (fun a b => a ≤ b) :=
  List.eq_of_perm_of_sorted
    ((List.perm_insertionSort _ k1).trans (h.trans (List.perm_insertionSort _ k2).symm))
    (List.sorted_insertionSort _ k1) (List.sorted_insertionSort _ k2)

/-- The on-disk state `create_pex` consults: which paths are directories. -/
structure FileSystem where
  isdir : String → Bool

/-- The PEX value `create_pex` returns: `PEX(path, interpreter)`. -/
structure PexValue where
  path : String
  interpreter : String
deriving DecidableEq

/-- The observable outcome of one `create_pex` call. -/
structure CreatePexRun where
  targetSetId : String
  path : String
  built : Bool
  result : PexValue
deriving DecidableEq

/-- The merged-PEX output directory, `os.path.join(workdir,
str(interpreter.identity), target_set_id)`. -/
def pexOutputPath (workdir interpreterId targetSetId : String) : String :=
  workdir ++ "/" ++ interpreterId ++ "/" ++ targetSetId

/-- Embeds `PythonExecutionTaskBase.create_pex`: the target-set id is the merged
cache key of all versioned target sets when there are any and the fixed
string `no_targets` otherwise; the merged PEX is (re)built exactly when
the output directory does not exist — the code deliberately checks the
directory instead of `invalid_vts` — and `PEX(path, interpreter)` is
returned unconditionally. -/
def createPex (hash : List Nat → Nat) (fs : FileSystem)
    (workdir interpreterId : String) (allVts invalidVts : List Nat) :
    CreatePexRun :=
  let targetSetId :=
    if allVts.isEmpty then ("no_targets")
    else toString (fromVersionedTargetsKey hash allVts)
  let path := pexOutputPath workdir interpreterId targetSetId
  { targetSetId := targetSetId
    path := path
    built := !(fs.isdir path)
    result := { path := path, interpreter := interpreterId } }

/-- C3: `create_pex` (re)builds the merged PEX exactly when the output
directory derived from the interpreter identity and the merged cache key
is missing on disk, and its behaviour is independent of which versioned
target sets the invalidation check reported invalid — in particular a
missing artifact is rebuilt even when every versioned target set was
reported valid. -/
theorem create_pex_rebuilds_iff_output_dir_missing (hash : List Nat → Nat)
    (fs : FileSystem) (workdir interpreterId : String)
    (allVts invalidVts otherInvalidVts : List Nat) :
    ((createPex hash fs workdir interpreterId allVts invalidVts).built = true ↔
      fs.isdir (createPex hash fs workdir interpreterId allVts invalidVts).path
        = false) ∧
    createPex hash fs workdir interpreterId allVts invalidVts =
      createPex hash fs workdir interpreterId allVts otherInvalidVts := by
  refine ⟨?_, rfl⟩
  have hb : ∀ b : Bool, ((!b) = true ↔ b = false) := by decide
  exact hb (fs.isdir (createPex hash fs workdir interpreterId allVts invalidVts).path)

/-- C4: the merged cache key of a versioned target set — and with it the
`target_set_id` that keys `create_pex`'s output directory — is invariant
under every permutation of the input targets' individual keys. -/
theorem merged_versioned_target_set_key_perm_invariant (hash : List Nat → Nat)
    (k1 k2 : List Nat) (hperm : k1.Perm k2) (fs : FileSystem)
    (workdir interpreterId : String) (invalidVts : List Nat) :
    fromVersionedTargetsKey hash k1 = fromVersionedTargetsKey hash k2 ∧
    (createPex hash fs workdir interpreterId k1 invalidVts).targetSetId =
      (createPex hash fs workdir interpreterId k2 invalidVts).targetSetId := by
  have hkey : fromVersionedTargetsKey hash k1 = fromVersionedTargetsKey hash k2 := by
    unfold fromVersionedTargetsKey
    rw [insertionSort_eq_of_perm k1 k2 hperm]
  refine ⟨hkey, ?_⟩
  have hlen := hperm.length_eq
  have hempty : k1.isEmpty = k2.isEmpty := by
    cases k1 <;> cases k2 <;> simp_all
  show (if k1.isEmpty then ("no_targets")
          else toString (fromVersionedTargetsKey hash k1)) =
       (if k2.isEmpty then ("no_targets")
          else toString (fromVersionedTargetsKey hash k2))
  rw [hkey, hempty]

theorem merged_versioned_target_set_key_perm_invariant_witness :
    ([3, 1, 2].Perm [1, 2, 3]) ∧
    (fromVersionedTargetsKey List.sum [3, 1, 2] =
       fromVersionedTargetsKey List.sum [1, 2, 3] ∧
     (createPex List.sum { isdir := fun _ => false } ("w") ("i") [3, 1, 2] []).targetSetId =
       (createPex List.sum { isdir := fun _ => false } ("w") ("i") [1, 2, 3] []).targetSetId) :=
  ⟨by decide,
   merged_versioned_target_set_key_perm_invariant List.sum [3, 1, 2] [1, 2, 3]
     (by decide) { isdir := fun _ => false } ("w") ("i") []⟩

/-- C10: with no Python-relevant targets (empty `all_vts`), `create_pex`
still returns a PEX — keyed under the fixed id `no_targets` — and rebuilds
it exactly when that directory is missing. -/
theorem create_pex_empty_vts_no_targets (hash : List Nat → Nat)
    (fs : FileSystem) (workdir interpreterId : String) (invalidVts : List Nat) :
    (createPex hash fs workdir interpreterId [] invalidVts).targetSetId
        = "no_targets" ∧
    (createPex hash fs workdir interpreterId [] invalidVts).result =
      { path := pexOutputPath workdir interpreterId ("no_targets")
        interpreter := interpreterId } ∧
    (createPex hash fs workdir interpreterId [] invalidVts).built =
      !(fs.isdir (pexOutputPath workdir interpreterId ("no_targets"))) :=
  ⟨rfl, rfl, rfl⟩

/-- A product type name in the products registry. -/
abbrev ProductType := String

/-- A task registration: the product types it requires via
`round_manager.require_data` and the product types it provides. -/
structure TaskDecl where
  name : String
  requiresData : List ProductType
  providesData : List ProductType
deriving DecidableEq

/-- The product types `PythonExecutionTaskBase.prepare` requires via
`round_manager.require_data`. -/
def pythonExecutionTaskBaseRequiredData : List ProductType :=
  ["PythonInterpreter", "ResolveRequirements.REQUIREMENTS_PEX",
   "GatherSources.PYTHON_SOURCES"]

/-- The registered tasks providing a product type. -/
def providersOf (tasks : List TaskDecl) (p : ProductType) : List TaskDecl :=
  tasks.filter (fun t => decide (p ∈ t.providesData))

/-- Schedule-construction failures: an unsatisfied product requirement, or
a require/provide cycle. -/
inductive ScheduleError where
  | unsatisfied (taskName : String) (missing : ProductType)
  | cycle
deriving DecidableEq

/-- A task is ready when no still-unscheduled task provides any of its
required product types (so every provider is already scheduled). -/
def readyTask (remaining : List TaskDecl) (t : TaskDecl) : Bool :=
  t.requiresData.all (fun p => (providersOf remaining p).isEmpty)

/-- Modelled from the spec: the round engine's scheduling loop repeatedly
schedules a ready task; fuel bounds the iterations by the task count. -/
def scheduleAux : Nat → List TaskDecl → List TaskDecl →
    Except ScheduleError (List TaskDecl)
  | _, scheduled, [] => Except.ok scheduled.reverse
  | 0, _, _ :: _ => Except.error ScheduleError.cycle
  | Nat.succ fuel, scheduled, remaining =>
    match remaining.find? (readyTask remaining) with
    | none => Except.error ScheduleError.cycle
    | some t => scheduleAux fuel (t :: scheduled) (remaining.erase t)

/-- Modelled from the spec: schedule construction — before anything runs,
every required product type must have a registered provider
(`UnsatisfiedDependencyError` otherwise), then tasks are ordered so that a
task requiring a product runs strictly after every task providing it. -/
def constructSchedule (tasks : List TaskDecl) :
    Except ScheduleError (List TaskDecl) :=
  match tasks.findSome? (fun t =>
    (t.requiresData.find? (fun p => (providersOf tasks p).isEmpty)).map
      (fun p => (t.name, p))) with
  | some np => Except.error (ScheduleError.unsatisfied np.1 np.2)
  | none => scheduleAux tasks.length [] tasks

/-- The ordering guarantee: no later task provides a product an earlier
task requires (i.e. every requirer is scheduled strictly after all of its
providers). -/
def ScheduleOrdered (sched : List TaskDecl) : Prop :=
  List.Pairwise (fun a b => ∀ p ∈ a.requiresData, p ∉ b.providesData) sched

/-- The scheduling loop preserves the partial ordering invariants and
returns a permutation of its input. -/
theorem scheduleAux_spec :
    ∀ fuel scheduled remaining sched,
      (∀ a ∈ scheduled, ∀ t ∈ remaining, ∀ p ∈ a.requiresData,
         p ∉ t.providesData) →
      List.Pairwise (fun a b => ∀ p ∈ b.requiresData, p ∉ a.providesData)
        scheduled →
      scheduleAux fuel scheduled remaining = Except.ok sched →
      sched.Perm (scheduled.reverse ++ remaining) ∧ ScheduleOrdered sched := by
  intro fuel
  induction fuel with
  | zero =>
    intro scheduled remaining sched hinv hpw heq
    match remaining with
    | [] =>
      have : sched = scheduled.reverse := by
        have := Except.ok.inj heq
        exact this.symm
      subst this
      refine ⟨by simp, ?_⟩
      unfold ScheduleOrdered
      rw [List.pairwise_reverse]
      exact hpw
    | _ :: _ => cases heq
  | succ n ih =>
    intro scheduled remaining sched hinv hpw heq
    match remaining with
    | [] =>
      have : sched = scheduled.reverse := by
        have := Except.ok.inj heq
        exact this.symm
      subst this
      refine ⟨by simp, ?_⟩
      unfold ScheduleOrdered
      rw [List.pairwise_reverse]
      exact hpw
    | r :: rs =>
      rw [show scheduleAux (n + 1) scheduled (r :: rs) =
            (match (r :: rs).find? (readyTask (r :: rs)) with
             | none => Except.error ScheduleError.cycle
             | some t => scheduleAux n (t :: scheduled) ((r :: rs).erase t))
          from rfl] at heq
      cases hfind : (r :: rs).find? (readyTask (r :: rs)) with
      | none => rw [hfind] at heq; cases heq
      | some t =>
        rw [hfind] at heq
        have htmem : t ∈ r :: rs := List.mem_of_find?_eq_some hfind
        have htready : readyTask (r :: rs) t = true := List.find?_some hfind
        have hready : ∀ p ∈ t.requiresData, ∀ u ∈ r :: rs, p ∉ u.providesData := by
          intro p hp u hu hpu
          have hall := List.all_eq_true.mp htready p hp
          have : (providersOf (r :: rs) p).isEmpty = true := by simpa using hall
          rw [List.isEmpty_iff] at this
          have : u ∈ providersOf (r :: rs) p := by
            unfold providersOf
            rw [List.mem_filter]
            exact ⟨hu, by simpa using hpu⟩
          simp_all
        have hinv' : ∀ a ∈ t :: scheduled, ∀ u ∈ (r :: rs).erase t,
            ∀ p ∈ a.requiresData, p ∉ u.providesData := by
          intro a ha u hu p hp
          have humem : u ∈ r :: rs := List.mem_of_mem_erase hu
          rcases List.mem_cons.mp ha with heqa | hmema
          · subst heqa
            exact hready p hp u humem
          · exact hinv a hmema u humem p hp
        have hpw' : List.Pairwise
            (fun a b => ∀ p ∈ b.requiresData, p ∉ a.providesData)
            (t :: scheduled) := by
          refine List.pairwise_cons.mpr ⟨?_, hpw⟩
          intro a ha p hp
          exact hinv a ha t htmem p hp
        obtain ⟨hperm, hord⟩ := ih (t :: scheduled) ((r :: rs).erase t) sched
          hinv' hpw' heq
        refine ⟨?_, hord⟩
        have hpcons : (r :: rs).Perm (t :: (r :: rs).erase t) :=
          List.perm_cons_erase htmem
        have heqlist : (t :: scheduled).reverse ++ (r :: rs).erase t =
            scheduled.reverse ++ (t :: (r :: rs).erase t) := by
          rw [List.reverse_cons, List.append_assoc]
          rfl
        rw [heqlist] at hperm
        exact hperm.trans (List.Perm.append_left scheduled.reverse hpcons.symm)

/-- Modelled from the spec: a run executes the scheduled tasks in order
only when schedule construction succeeded; a construction error aborts the
run with no task executed. -/
def runSchedule (tasks : List TaskDecl) : Except ScheduleError (List String) :=
  match constructSchedule tasks with
  | Except.error e => Except.error e
  | Except.ok sched => Except.ok (sched.map TaskDecl.name)

/-- C6: when some registered task requires a product type no registered
task provides — as `PythonExecutionTaskBase.prepare`'s three
`require_data` declarations do when their providers are absent — schedule
construction fails with an unsatisfied-dependency error and the run
executes no task; when construction succeeds, the schedule contains every
task exactly once and every task requiring a product runs strictly after
every task providing it. -/
theorem schedule_unsatisfied_requirement_and_ordering (tasks : List TaskDecl) :
    ((∃ t ∈ tasks, ∃ p ∈ t.requiresData, providersOf tasks p = []) →
       ∃ n p, constructSchedule tasks =
         Except.error (ScheduleError.unsatisfied n p)) ∧
    ((∃ t ∈ tasks, pythonExecutionTaskBaseRequiredData ⊆ t.requiresData) →
       providersOf tasks ("PythonInterpreter") = [] →
       ∃ n p, constructSchedule tasks =
         Except.error (ScheduleError.unsatisfied n p)) ∧
    (∀ e, constructSchedule tasks = Except.error e →
       runSchedule tasks = Except.error e) ∧
    (∀ sched, constructSchedule tasks = Except.ok sched →
       sched.Perm tasks ∧ ScheduleOrdered sched ∧
       runSchedule tasks = Except.ok (sched.map TaskDecl.name)) := by
  have hmissing : (∃ t ∈ tasks, ∃ p ∈ t.requiresData, providersOf tasks p = []) →
      ∃ n p, constructSchedule tasks =
        Except.error (ScheduleError.unsatisfied n p) := by
    rintro ⟨t, ht, p, hp, hprov⟩
    have hft : (t.requiresData.find?
        (fun q => (providersOf tasks q).isEmpty)).isSome := by
      rw [List.find?_isSome]
      exact ⟨p, hp, by rw [hprov]; rfl⟩
    have hsome : (tasks.findSome? (fun t =>
        (t.requiresData.find? (fun p => (providersOf tasks p).isEmpty)).map
          (fun p => (t.name, p)))).isSome := by
      rw [List.findSome?_isSome_iff]
      refine ⟨t, ht, ?_⟩
      cases hfind : t.requiresData.find? (fun q => (providersOf tasks q).isEmpty) with
      | none => rw [hfind] at hft; cases hft
      | some q => rfl
    cases hm : tasks.findSome? (fun t =>
        (t.requiresData.find? (fun p => (providersOf tasks p).isEmpty)).map
          (fun p => (t.name, p))) with
    | none => rw [hm] at hsome; cases hsome
    | some np =>
      refine ⟨np.1, np.2, ?_⟩
      unfold constructSchedule
      rw [hm]
  refine ⟨hmissing, ?_, ?_, ?_⟩
  · rintro ⟨t, ht, hsub⟩ hprov
    refine hmissing ⟨t, ht, "PythonInterpreter", ?_, hprov⟩
    exact hsub (by decide)
  · intro e he
    unfold runSchedule
    rw [he]
  · intro sched heq
    have hnone : tasks.findSome? (fun t =>
        (t.requiresData.find? (fun p => (providersOf tasks p).isEmpty)).map
          (fun p => (t.name, p))) = none := by
      cases hm : tasks.findSome? (fun t =>
          (t.requiresData.find? (fun p => (providersOf tasks p).isEmpty)).map
            (fun p => (t.name, p))) with
      | none => rfl
      | some np =>
        unfold constructSchedule at heq
        rw [hm] at heq
        cases heq
    have haux : scheduleAux tasks.length [] tasks = Except.ok sched := by
      unfold constructSchedule at heq
      rw [hnone] at heq
      exact heq
    obtain ⟨hperm, hord⟩ := scheduleAux_spec tasks.length [] tasks sched
      (by intro a ha; cases ha) List.Pairwise.nil haux
    refine ⟨by simpa using hperm, hord, ?_⟩
    unfold runSchedule
    rw [heq]

/-- Concrete tasks for the scheduling witness: the three providers of the
products `PythonExecutionTaskBase.prepare` requires, plus a consumer task
requiring them. -/
def taskSelectInterpreter : TaskDecl :=
  { name := "select-interpreter", requiresData := [],
    providesData := ["PythonInterpreter"] }

def taskResolveRequirements : TaskDecl :=
  { name := "resolve-requirements", requiresData := [],
    providesData := ["ResolveRequirements.REQUIREMENTS_PEX"] }

def taskGatherSources : TaskDecl :=
  { name := "gather-sources", requiresData := [],
    providesData := ["GatherSources.PYTHON_SOURCES"] }

def taskPytestRun : TaskDecl :=
  { name := "pytest-run", requiresData := pythonExecutionTaskBaseRequiredData,
    providesData := [] }

def tasksW6good : List TaskDecl :=
  [taskPytestRun, taskSelectInterpreter, taskResolveRequirements,
   taskGatherSources]

def tasksW6bad : List TaskDecl := [taskPytestRun]

theorem schedule_unsatisfied_requirement_and_ordering_witness :
    (∃ n p, constructSchedule tasksW6bad =
       Except.error (ScheduleError.unsatisfied n p)) ∧
    ([taskSelectInterpreter, taskResolveRequirements, taskGatherSources,
        taskPytestRun].Perm tasksW6good ∧
     ScheduleOrdered [taskSelectInterpreter, taskResolveRequirements,
        taskGatherSources, taskPytestRun] ∧
     runSchedule tasksW6good = Except.ok ["select-interpreter",
        "resolve-requirements", "gather-sources", "pytest-run"]) :=
  ⟨(schedule_unsatisfied_requirement_and_ordering tasksW6bad).1
     ⟨taskPytestRun, by decide, "PythonInterpreter", by decide, by decide⟩,
   (schedule_unsatisfied_requirement_and_ordering tasksW6good).2.2.2
     [taskSelectInterpreter, taskResolveRequirements, taskGatherSources,
      taskPytestRun] rfl⟩

/-- Concrete graph for the dependents witness: root `0` depends on `1`. -/
def gW8 : BuildGraph :=
  { nodes := [0, 1]
    deps := fun a => if a = 0 then [1] else []
    syntheticAddresses := []
    derivedFrom := fun a => a }

theorem dependents_reverse_edge_characterization_witness :
    (0 ∈ unfilteredTargets gW8 [0] [] ∧ decide ((0 : Addr) = 0) = true ∧
     ∃ d ∈ gW8.deps 0, d ∈ unfilteredTargets gW8 [0] [] ∧
       decide (d = 1) = true) ∧
    (∃ ds, (0, ds) ∈ (contextDependents (contextInit gW8 [0])
       (fun d => decide (d = 1)) (fun t => decide (t = 0))).1) :=
  ⟨⟨by decide, by decide, 1, by decide, by decide, by decide⟩,
   ((dependents_reverse_edge_characterization gW8 [0]
       (fun d => decide (d = 1)) (fun t => decide (t = 0))).2.1 0).mpr
     ⟨by decide, by decide, 1, by decide, by decide, by decide⟩⟩
